import Mathlib

/-!
Shallow embedding of `scripts/agent_select.py` (agent-driven stock selection).

The script's interesting logic is `_extract_stock_codes`: three regular
expressions scanned over the agent's free-text report, with an ordered-set
dedup, followed in `main` by truncation `codes[:max_stocks]`, a comma join
and a fixed exit-code discipline.

Text is modelled as `List Char`.  Each regex is embedded as a matcher
`tryMatch… : List Char → Nat → Option (String × Nat)` returning the token
the Python code keeps for that match together with the match end, and a
fuel-indexed scanner reproduces `re.finditer`'s left-to-right,
non-overlapping scan (on failure advance one position, after a match resume
at its end; none of the patterns can match the empty string).

`\d` and `[A-Z]` are the ASCII classes (as in the texts the script handles);
`\w` (for `\b`) is modelled by `isWordChar` below: ASCII letters, digits,
underscore, and CJK ideographs — the word characters occurring in this
program's inputs.  `re.IGNORECASE` on the 2-letter markers is modelled with
`Char.toUpper`.
-/

namespace AgentSelect

/-- Python `\w` restricted to the character repertoire relevant here:
ASCII alphanumerics, underscore, and CJK unified ideographs (which Python's
Unicode `\w` also counts as word characters). -/
def isWordChar (c : Char) : Bool :=
  c.isAlpha || c.isDigit || c = '_' || (0x4E00 ≤ c.val && c.val ≤ 0x9FFF)

/-- Word-character test on an optional character; out of text counts as
non-word, as for Python's `\b` at the ends of the string. -/
def wordOpt : Option Char → Bool
  | none => false
  | some c => isWordChar c

/-- Python `\b` at position `i` of `text`: the characters on the two sides
of the position differ in word-ness. -/
def boundaryAt (text : List Char) (i : Nat) : Bool :=
  wordOpt (if i = 0 then none else text.get? (i - 1)) != wordOpt (text.get? i)

/-- The two characters at `i`, uppercased, are `a` then `b`
(the `re.IGNORECASE` match of a 2-letter marker such as `SH`/`SZ`/`HK`). -/
def twoUpperAt (text : List Char) (i : Nat) (a b : Char) : Bool :=
  match text.get? i, text.get? (i + 1) with
  | some c, some d => c.toUpper = a && d.toUpper = b
  | _, _ => false

/-- One alternative of the code group `[036]\d{5}|[12]\d{5}`: six characters
at `i`, the first from `fs`, the rest ASCII digits. -/
def sixAt (text : List Char) (i : Nat) (fs : List Char) : Option (List Char) :=
  match text.get? i, text.get? (i + 1), text.get? (i + 2), text.get? (i + 3),
        text.get? (i + 4), text.get? (i + 5) with
  | some c0, some c1, some c2, some c3, some c4, some c5 =>
      if fs.contains c0 && c1.isDigit && c2.isDigit && c3.isDigit
          && c4.isDigit && c5.isDigit then
        some [c0, c1, c2, c3, c4, c5]
      else none
  | _, _, _, _, _, _ => none

/-- The named group `(?P<code>[036]\d{5}|[12]\d{5})` at position `i`:
first alternative tried first, as the backtracking engine does. -/
def codeAt (text : List Char) (i : Nat) : Option (List Char) :=
  match sixAt text i ['0', '3', '6'] with
  | some code => some code
  | none => sixAt text i ['1', '2']

/-- The optional suffix `(?:\.(?:SH|SZ))?` starting at `j`: on success the
position after the three consumed characters. -/
def suffixEnd (text : List Char) (j : Nat) : Option Nat :=
  match text.get? j with
  | some c =>
      if c = '.' && (twoUpperAt text (j + 1) 'S' 'H' || twoUpperAt text (j + 1) 'S' 'Z') then
        some (j + 3)
      else none
  | none => none

/-- The part of `_ASTOCK_FULL` after the optional prefix, with the code
group starting at `i`: code, then (suffix then `\b`) or (no suffix then
`\b`), in the engine's backtracking order.  Returns the group's text and
the end of the whole match. -/
def astockTailAt (text : List Char) (i : Nat) : Option (String × Nat) :=
  match codeAt text i with
  | none => none
  | some code =>
      match suffixEnd text (i + 6) with
      | some k =>
          if boundaryAt text k then some (String.mk code, k)
          else if boundaryAt text (i + 6) then some (String.mk code, i + 6)
          else none
      | none =>
          if boundaryAt text (i + 6) then some (String.mk code, i + 6) else none

/-- `_ASTOCK_FULL = \b(?:SH|SZ)?(?P<code>[036]\d{5}|[12]\d{5})(?:\.(?:SH|SZ))?\b`
(IGNORECASE) attempted at position `i`: leading `\b`, then the prefixed
attempt (when `SH`/`SZ` is present) with fallback to the unprefixed one. -/
def tryMatchAstock (text : List Char) (i : Nat) : Option (String × Nat) :=
  if boundaryAt text i then
    if twoUpperAt text i 'S' 'H' || twoUpperAt text i 'S' 'Z' then
      match astockTailAt text (i + 2) with
      | some r => some r
      | none => astockTailAt text i
    else astockTailAt text i
  else none

/-- `_HKSTOCK_FULL = \bHK\d{5}\b` (IGNORECASE) attempted at `i`; the token
kept by the code is `m.group(0).upper()`. -/
def tryMatchHK (text : List Char) (i : Nat) : Option (String × Nat) :=
  if boundaryAt text i && twoUpperAt text i 'H' 'K' then
    match text.get? i, text.get? (i + 1), text.get? (i + 2), text.get? (i + 3),
          text.get? (i + 4), text.get? (i + 5), text.get? (i + 6) with
    | some c0, some c1, some d1, some d2, some d3, some d4, some d5 =>
        if (d1.isDigit && d2.isDigit && d3.isDigit && d4.isDigit && d5.isDigit)
            && boundaryAt text (i + 7) then
          some (String.mk ([c0, c1, d1, d2, d3, d4, d5].map Char.toUpper), i + 7)
        else none
    | _, _, _, _, _, _, _ => none
  else none

/-- `k` consecutive ASCII uppercase letters at `i` followed by `\b`
(one backtracking attempt of `[A-Z]{1,5}\b`). -/
def upperRunOk (text : List Char) (i k : Nat) : Bool :=
  (List.range k).all (fun t =>
    match text.get? (i + t) with
    | some c => c.isUpper
    | none => false) && boundaryAt text (i + k)

/-- The slice of `text` of length `k` starting at `i` (the matched token). -/
def takeAt (text : List Char) (i k : Nat) : List Char :=
  (text.drop i).take k

/-- `_USSTOCK_FULL = \b[A-Z]{1,5}\b` attempted at `i`: the greedy engine
tries run length 5 first, then shorter. -/
def tryMatchUS (text : List Char) (i : Nat) : Option (String × Nat) :=
  if boundaryAt text i then
    if upperRunOk text i 5 then some (String.mk (takeAt text i 5), i + 5)
    else if upperRunOk text i 4 then some (String.mk (takeAt text i 4), i + 4)
    else if upperRunOk text i 3 then some (String.mk (takeAt text i 3), i + 3)
    else if upperRunOk text i 2 then some (String.mk (takeAt text i 2), i + 2)
    else if upperRunOk text i 1 then some (String.mk (takeAt text i 1), i + 1)
    else none
  else none

/-- One match of `re.finditer`: start, end, and the token the script keeps
for it (the group for A-shares, the uppercased whole match for HK, the
whole match for US). -/
structure RegexMatch where
  mstart : Nat
  mstop : Nat
  tok : String
deriving Repr, DecidableEq

/-- `re.finditer`'s scan: at each position attempt the pattern; on success
record the match and resume at its end, otherwise advance one position.
`fuel` bounds the number of attempts (`text.length + 1` suffices because
every pattern here consumes at least one character). -/
def scanFrom (tryAt : Nat → Option (String × Nat)) : Nat → Nat → List RegexMatch
  | 0, _ => []
  | fuel + 1, i =>
      match tryAt i with
      | some (tok, j) => ⟨i, j, tok⟩ :: scanFrom tryAt fuel j
      | none => scanFrom tryAt fuel (i + 1)

/-- `_ASTOCK_FULL.finditer(text)` with the kept group per match. -/
def astockMatches (text : List Char) : List RegexMatch :=
  scanFrom (tryMatchAstock text) (text.length + 1) 0

/-- `_HKSTOCK_FULL.finditer(text)` with the kept (uppercased) token. -/
def hkMatches (text : List Char) : List RegexMatch :=
  scanFrom (tryMatchHK text) (text.length + 1) 0

/-- `_USSTOCK_FULL.finditer(text)`. -/
def usMatches (text : List Char) : List RegexMatch :=
  scanFrom (tryMatchUS text) (text.length + 1) 0

/-- `seen.setdefault(tok)` on the ordered dict used as an ordered set:
first occurrence wins, a later duplicate is a no-op. -/
def setdefault (seen : List String) (tok : String) : List String :=
  if tok ∈ seen then seen else seen ++ [tok]

/-- The character class `[$%￥¥\d]` of the ticker-context heuristic. -/
def contextTrigger (c : Char) : Bool :=
  c = '$' || c = '%' || c = '￥' || c = '¥' || c.isDigit

/-- `text[max(0, m.start()-20) : min(len(text), m.end()+20)]` contains a
character of `[$%￥¥\d]` (Python slice = take the right bound, drop the
left; `Nat` subtraction supplies the clamping at 0). -/
def contextOk (text : List Char) (m : RegexMatch) : Bool :=
  ((text.take (m.mstop + 20)).drop (m.mstart - 20)).any contextTrigger

/-- The domestic loop of `_extract_stock_codes`: every A-share match whose
group starts with `0/3/6` or `1/2` is inserted.  The group can only start
with one of those five digits, so the `if` of the source is always true
and every match is inserted. -/
def astockStage (text : List Char) : List String :=
  (astockMatches text).foldl (fun s m => setdefault s m.tok) []

/-- The HK loop: insert every uppercased HK match. -/
def hkStage (text : List Char) (seen : List String) : List String :=
  (hkMatches text).foldl (fun s m => setdefault s m.tok) seen

/-- The US loop: insert a ticker match only when its ±20-character context
window contains a currency symbol, percent sign or digit. -/
def usStage (text : List Char) (seen : List String) : List String :=
  (usMatches text).foldl
    (fun s m => if contextOk text m then setdefault s m.tok else s) seen

/-- `_extract_stock_codes(text, market)`: domestic loop always, HK loop for
`hk`/`mixed`, US loop for `us`/`mixed`; result in insertion order. -/
def extractStockCodes (text : List Char) (market : String) : List String :=
  let s1 := astockStage text
  let s2 := if market = "hk" || market = "mixed" then hkStage text s1 else s1
  if market = "us" || market = "mixed" then usStage text s2 else s2

/-- Python's `l[:n]` for an `int` `n`: clamp-at-ends slice semantics — a
non-negative bound takes that many from the front, a negative bound drops
`|n|` from the end. -/
def pySlice {α : Type} (l : List α) (n : Int) : List α :=
  if 0 ≤ n then l.take n.toNat else l.take ((l.length : Int) + n).toNat

/-- Outcome of the external executor as `main` observes it: the factory
raises (caught `except Exception`), or `run` returns a result whose
`success` flag is false (with its `error`), or true (with its `content`). -/
inductive ExecOutcome where
  | buildError
  | runFailure (error : String)
  | runSuccess (content : String)
deriving Repr, DecidableEq

/-- What a run of `main` produces: the lines printed to stdout, in order,
and the returned exit status. -/
structure MainResult where
  stdoutLines : List String
  exitCode : Nat
deriving Repr, DecidableEq

/-- `main()` after argument parsing, as a function of the executor outcome,
the `--market` scope and `--max-stocks`:
build failure → return 1 (nothing printed);
executor-reported failure → print `""`, return 1;
success → extract, truncate with `codes[:max_stocks]`, then print `""`
(return 0) when empty, else print the comma join (return 0). -/
def mainRun (outcome : ExecOutcome) (market : String) (maxStocks : Int) : MainResult :=
  match outcome with
  | .buildError => { stdoutLines := [], exitCode := 1 }
  | .runFailure _ => { stdoutLines := [""], exitCode := 1 }
  | .runSuccess content =>
      let codes := pySlice (extractStockCodes content.data market) maxStocks
      if codes.isEmpty then { stdoutLines := [""], exitCode := 0 }
      else { stdoutLines := [String.intercalate "," codes], exitCode := 0 }

/-! ### Basic facts about the embedding -/

/-- No ASCII uppercase letter is an ASCII digit. -/
theorem not_isDigit_of_isUpper (c : Char) (h1 : c.isUpper = true) (h2 : c.isDigit = true) :
    False := by
  simp only [Char.isUpper, Char.isDigit, Bool.and_eq_true, decide_eq_true_eq] at h1 h2
  have ha : (65 : UInt32) ≤ c.val := h1.1
  have hb : c.val ≤ (57 : UInt32) := h2.2
  rw [UInt32.le_def, BitVec.le_def] at ha hb
  exact absurd (Nat.le_trans ha hb) (by decide)

/-- Every match produced by the scanner comes from a successful attempt of
the pattern at the match's start position. -/
theorem mem_scanFrom (tryAt : Nat → Option (String × Nat)) :
    ∀ (fuel i : Nat) (m : RegexMatch), m ∈ scanFrom tryAt fuel i →
      tryAt m.mstart = some (m.tok, m.mstop) := by
  intro fuel
  induction fuel with
  | zero => intro i m h; simp [scanFrom] at h
  | succ f ih =>
      intro i m h
      cases htry : tryAt i with
      | none =>
          rw [scanFrom, htry] at h
          exact ih _ _ h
      | some r =>
          obtain ⟨tok, j⟩ := r
          rw [scanFrom, htry] at h
          rcases List.mem_cons.mp h with h1 | h2
          · subst h1; exact htry
          · exact ih _ _ h2

/-- Shape of a successful `sixAt`: six characters, the first in the allowed
set, the remaining five ASCII digits. -/
theorem sixAt_shape (text : List Char) (i : Nat) (fs : List Char) (code : List Char)
    (h : sixAt text i fs = some code) :
    ∃ c0 c1 c2 c3 c4 c5, code = [c0, c1, c2, c3, c4, c5] ∧ c0 ∈ fs ∧
      c1.isDigit = true ∧ c2.isDigit = true ∧ c3.isDigit = true ∧
      c4.isDigit = true ∧ c5.isDigit = true := by
  unfold sixAt at h
  split at h
  next c0 c1 c2 c3 c4 c5 _ _ _ _ _ _ =>
    split at h
    next hcond =>
      simp only [Bool.and_eq_true] at hcond
      obtain ⟨⟨⟨⟨⟨hc0, hc1⟩, hc2⟩, hc3⟩, hc4⟩, hc5⟩ := hcond
      cases h
      exact ⟨c0, c1, c2, c3, c4, c5, rfl, List.elem_iff.mp hc0, hc1, hc2, hc3, hc4, hc5⟩
    next => cases h
  next => cases h

/-- Shape of a successful code-group parse: six digits whose leading digit
is in the allow-list `{0,1,2,3,6}`. -/
theorem codeAt_shape (text : List Char) (i : Nat) (code : List Char)
    (h : codeAt text i = some code) :
    ∃ c0 c1 c2 c3 c4 c5, code = [c0, c1, c2, c3, c4, c5] ∧
      (c0 = '0' ∨ c0 = '1' ∨ c0 = '2' ∨ c0 = '3' ∨ c0 = '6') ∧
      c0.isDigit = true ∧ c1.isDigit = true ∧ c2.isDigit = true ∧
      c3.isDigit = true ∧ c4.isDigit = true ∧ c5.isDigit = true := by
  unfold codeAt at h
  cases h1 : sixAt text i ['0', '3', '6'] with
  | some code' =>
      rw [h1] at h
      cases h
      obtain ⟨c0, c1, c2, c3, c4, c5, rfl, hc0, h1', h2', h3', h4', h5'⟩ :=
        sixAt_shape text i _ _ h1
      have hd : c0 = '0' ∨ c0 = '1' ∨ c0 = '2' ∨ c0 = '3' ∨ c0 = '6' := by
        simp only [List.mem_cons, List.not_mem_nil, or_false] at hc0
        tauto
      refine ⟨c0, c1, c2, c3, c4, c5, rfl, hd, ?_, h1', h2', h3', h4', h5'⟩
      rcases hd with rfl | rfl | rfl | rfl | rfl <;> decide
  | none =>
      rw [h1] at h
      obtain ⟨c0, c1, c2, c3, c4, c5, rfl, hc0, h1', h2', h3', h4', h5'⟩ :=
        sixAt_shape text i _ _ h
      have hd : c0 = '0' ∨ c0 = '1' ∨ c0 = '2' ∨ c0 = '3' ∨ c0 = '6' := by
        simp only [List.mem_cons, List.not_mem_nil, or_false] at hc0
        tauto
      refine ⟨c0, c1, c2, c3, c4, c5, rfl, hd, ?_, h1', h2', h3', h4', h5'⟩
      rcases hd with rfl | rfl | rfl | rfl | rfl <;> decide

/-- A successful A-share tail attempt keeps exactly the code group. -/
theorem astockTailAt_tok (text : List Char) (i : Nat) (tok : String) (j : Nat)
    (h : astockTailAt text i = some (tok, j)) :
    ∃ code, codeAt text i = some code ∧ tok = String.mk code := by
  unfold astockTailAt at h
  cases hc : codeAt text i with
  | none => simp [hc] at h
  | some code =>
      simp only [hc] at h
      refine ⟨code, rfl, ?_⟩
      cases hs : suffixEnd text (i + 6) with
      | some k =>
          simp only [hs] at h
          split at h
          · simp only [Option.some.injEq, Prod.mk.injEq] at h
            exact h.1.symm
          · split at h
            · simp only [Option.some.injEq, Prod.mk.injEq] at h
              exact h.1.symm
            · cases h
      | none =>
          simp only [hs] at h
          split at h
          · simp only [Option.some.injEq, Prod.mk.injEq] at h
            exact h.1.symm
          · cases h

/-- A successful A-share match keeps a code group parsed somewhere. -/
theorem tryMatchAstock_tok (text : List Char) (i : Nat) (tok : String) (j : Nat)
    (h : tryMatchAstock text i = some (tok, j)) :
    ∃ i' code, codeAt text i' = some code ∧ tok = String.mk code := by
  unfold tryMatchAstock at h
  split at h
  · split at h
    · cases h2 : astockTailAt text (i + 2) with
      | some r =>
          obtain ⟨tok2, j2⟩ := r
          simp only [h2, Option.some.injEq, Prod.mk.injEq] at h
          obtain ⟨rfl, rfl⟩ := h
          obtain ⟨code, hc, ht⟩ := astockTailAt_tok text (i + 2) tok2 j2 h2
          exact ⟨i + 2, code, hc, ht⟩
      | none =>
          simp only [h2] at h
          obtain ⟨code, hc, ht⟩ := astockTailAt_tok text i tok j h
          exact ⟨i, code, hc, ht⟩
    · obtain ⟨code, hc, ht⟩ := astockTailAt_tok text i tok j h
      exact ⟨i, code, hc, ht⟩
  · cases h

/-- Shape of a successful HK match: the kept token is the uppercased
7-character match `HK` marker plus five digits, and the match ends 7
characters after its start. -/
theorem tryMatchHK_shape (text : List Char) (i : Nat) (tok : String) (j : Nat)
    (h : tryMatchHK text i = some (tok, j)) :
    ∃ c0 c1 d1 d2 d3 d4 d5,
      text.get? i = some c0 ∧ text.get? (i + 1) = some c1 ∧
      text.get? (i + 2) = some d1 ∧ text.get? (i + 3) = some d2 ∧
      text.get? (i + 4) = some d3 ∧ text.get? (i + 5) = some d4 ∧
      text.get? (i + 6) = some d5 ∧
      c0.toUpper = 'H' ∧ c1.toUpper = 'K' ∧
      d1.isDigit = true ∧ d2.isDigit = true ∧ d3.isDigit = true ∧
      d4.isDigit = true ∧ d5.isDigit = true ∧
      tok = String.mk ([c0, c1, d1, d2, d3, d4, d5].map Char.toUpper) ∧
      j = i + 7 := by
  unfold tryMatchHK at h
  split at h
  next hb =>
    simp only [Bool.and_eq_true] at hb
    have hup : twoUpperAt text i 'H' 'K' = true := hb.2
    unfold twoUpperAt at hup
    split at hup
    next c0 c1 h0 h1 =>
      split at h
      next e0 e1 e2 e3 e4 e5 e6 g0 g1 g2 g3 g4 g5 g6 =>
        split at h
        next hcond =>
          simp only [Option.some.injEq, Prod.mk.injEq] at h
          obtain ⟨rfl, rfl⟩ := h
          simp only [Bool.and_eq_true] at hcond
          obtain ⟨⟨⟨⟨⟨hd1, hd2⟩, hd3⟩, hd4⟩, hd5⟩, _⟩ := hcond
          simp only [Bool.and_eq_true, decide_eq_true_eq] at hup
          rw [g0] at h0
          rw [g1] at h1
          injection h0 with h0'
          injection h1 with h1'
          subst h0'
          subst h1'
          exact ⟨e0, e1, e2, e3, e4, e5, e6, g0, g1, g2, g3, g4, g5, g6,
            hup.1, hup.2, hd1, hd2, hd3, hd4, hd5, rfl, rfl⟩
        next => cases h
      next => cases h
    next => cases hup
  next => cases h

/-- Every character of the slice `takeAt text i k` occurs in `text` at an
offset below `k` from `i`. -/
theorem mem_takeAt (text : List Char) (i k : Nat) (c : Char) (hc : c ∈ takeAt text i k) :
    ∃ t, t < k ∧ text.get? (i + t) = some c := by
  unfold takeAt at hc
  obtain ⟨n, hn⟩ := List.mem_iff_get?.mp hc
  have hnk : n < k := by
    by_contra hge
    rw [List.get?_take_eq_none (Nat.le_of_not_lt hge)] at hn
    cases hn
  rw [List.get?_take hnk, List.get?_drop] at hn
  exact ⟨n, hnk, hn⟩

/-- `upperRunOk` guarantees a character at each of the `k` offsets, ASCII
uppercase. -/
theorem upperRunOk_all (text : List Char) (i k : Nat) (h : upperRunOk text i k = true) :
    ∀ t, t < k → ∃ c, text.get? (i + t) = some c ∧ c.isUpper = true := by
  intro t ht
  unfold upperRunOk at h
  simp only [Bool.and_eq_true] at h
  have := List.all_eq_true.mp h.1 t (List.mem_range.mpr ht)
  cases hg : text.get? (i + t) with
  | none => rw [hg] at this; cases this
  | some c => rw [hg] at this; exact ⟨c, rfl, this⟩

/-- Shape of a successful US ticker match: the token is nonempty, at most
five characters, all ASCII uppercase, and is the matched slice of the
text. -/
theorem tryMatchUS_shape (text : List Char) (i : Nat) (tok : String) (j : Nat)
    (h : tryMatchUS text i = some (tok, j)) :
    ∃ k, 1 ≤ k ∧ k ≤ 5 ∧ tok = String.mk (takeAt text i k) ∧ j = i + k ∧
      upperRunOk text i k = true := by
  unfold tryMatchUS at h
  split at h
  · split at h
    next h5 =>
      simp only [Option.some.injEq, Prod.mk.injEq] at h
      exact ⟨5, by omega, by omega, h.1.symm, h.2.symm, h5⟩
    next =>
      split at h
      next h4 =>
        simp only [Option.some.injEq, Prod.mk.injEq] at h
        exact ⟨4, by omega, by omega, h.1.symm, h.2.symm, h4⟩
      next =>
        split at h
        next h3 =>
          simp only [Option.some.injEq, Prod.mk.injEq] at h
          exact ⟨3, by omega, by omega, h.1.symm, h.2.symm, h3⟩
        next =>
          split at h
          next h2 =>
            simp only [Option.some.injEq, Prod.mk.injEq] at h
            exact ⟨2, by omega, by omega, h.1.symm, h.2.symm, h2⟩
          next =>
            split at h
            next h1 =>
              simp only [Option.some.injEq, Prod.mk.injEq] at h
              exact ⟨1, by omega, by omega, h.1.symm, h.2.symm, h1⟩
            next => cases h
  · cases h

/-- The US token: nonempty, length at most 5, every character ASCII
uppercase. -/
theorem tryMatchUS_tok_upper (text : List Char) (i : Nat) (tok : String) (j : Nat)
    (h : tryMatchUS text i = some (tok, j)) :
    tok.data ≠ [] ∧ tok.length ≤ 5 ∧ ∀ c ∈ tok.data, c.isUpper = true := by
  obtain ⟨k, hk1, hk5, htok, _, hrun⟩ := tryMatchUS_shape text i tok j h
  subst htok
  have hdata : (String.mk (takeAt text i k)).data = takeAt text i k := rfl
  refine ⟨?_, ?_, ?_⟩
  · rw [hdata]
    obtain ⟨c, hc, _⟩ := upperRunOk_all text i k hrun 0 (by omega)
    intro hnil
    have : (takeAt text i k).length = 0 := by rw [hnil]; rfl
    unfold takeAt at this
    rw [List.length_take, List.length_drop] at this
    have hlt : i < text.length := by
      by_contra hge
      rw [List.get?_eq_none.mpr (by omega)] at hc
      cases hc
    omega
  · show (takeAt text i k).length ≤ 5
    unfold takeAt
    rw [List.length_take, List.length_drop]
    omega
  · intro c hc
    rw [hdata] at hc
    obtain ⟨t, htk, hget⟩ := mem_takeAt text i k c hc
    obtain ⟨c', hc', hup⟩ := upperRunOk_all text i k hrun t htk
    rw [hget] at hc'
    cases hc'
    exact hup

/-! ### The ordered-set folds -/

/-- A present token makes `setdefault` a no-op. -/
theorem setdefault_of_mem (s : List String) (t : String) (h : t ∈ s) :
    setdefault s t = s := by
  unfold setdefault
  exact if_pos h

/-- An absent token is appended at the end. -/
theorem setdefault_of_not_mem (s : List String) (t : String) (h : t ∉ s) :
    setdefault s t = s ++ [t] := by
  unfold setdefault
  exact if_neg h

/-- `setdefault` only ever appends, so a fold of it over the domestic or HK
loop extends its accumulator with a (possibly empty) tail of loop tokens. -/
theorem foldl_setdefault_decomp (toks : List RegexMatch) :
    ∀ acc : List String, ∃ t,
      toks.foldl (fun s m => setdefault s m.tok) acc = acc ++ t ∧
      ∀ x ∈ t, ∃ m, m ∈ toks ∧ x = m.tok := by
  induction toks with
  | nil => intro acc; exact ⟨[], by simp⟩
  | cons m toks ih =>
      intro acc
      obtain ⟨t, ht, hmem⟩ := ih (setdefault acc m.tok)
      rw [List.foldl_cons]
      by_cases hc : m.tok ∈ acc
      · rw [setdefault_of_mem acc m.tok hc] at ht
        rw [setdefault_of_mem acc m.tok hc]
        refine ⟨t, ht, fun x hx => ?_⟩
        obtain ⟨m', hm', hx'⟩ := hmem x hx
        exact ⟨m', List.mem_cons_of_mem _ hm', hx'⟩
      · rw [setdefault_of_not_mem acc m.tok hc] at ht
        rw [setdefault_of_not_mem acc m.tok hc]
        refine ⟨m.tok :: t, by rw [ht]; simp, fun x hx => ?_⟩
        rcases List.mem_cons.mp hx with rfl | hx'
        · exact ⟨m, List.mem_cons_self _ _, rfl⟩
        · obtain ⟨m', hm', hx''⟩ := hmem x hx'
          exact ⟨m', List.mem_cons_of_mem _ hm', hx''⟩

/-- Same decomposition for the US loop, whose insertions are guarded by the
context heuristic: the appended tokens all come from context-approved
matches. -/
theorem foldl_ctx_decomp (text : List Char) (toks : List RegexMatch) :
    ∀ acc : List String, ∃ t,
      toks.foldl (fun s m => if contextOk text m then setdefault s m.tok else s) acc
        = acc ++ t ∧
      ∀ x ∈ t, ∃ m, m ∈ toks ∧ x = m.tok ∧ contextOk text m = true := by
  induction toks with
  | nil => intro acc; exact ⟨[], by simp⟩
  | cons m toks ih =>
      intro acc
      rw [List.foldl_cons]
      by_cases hctx : contextOk text m = true
      · obtain ⟨t, ht, hmem⟩ := ih (setdefault acc m.tok)
        rw [if_pos hctx]
        by_cases hc : m.tok ∈ acc
        · rw [setdefault_of_mem acc m.tok hc] at ht
          rw [setdefault_of_mem acc m.tok hc]
          refine ⟨t, ht, fun x hx => ?_⟩
          obtain ⟨m', hm', hx', hc'⟩ := hmem x hx
          exact ⟨m', List.mem_cons_of_mem _ hm', hx', hc'⟩
        · rw [setdefault_of_not_mem acc m.tok hc] at ht
          rw [setdefault_of_not_mem acc m.tok hc]
          refine ⟨m.tok :: t, by rw [ht]; simp, fun x hx => ?_⟩
          rcases List.mem_cons.mp hx with rfl | hx'
          · exact ⟨m, List.mem_cons_self _ _, rfl, hctx⟩
          · obtain ⟨m', hm', hx'', hc'⟩ := hmem x hx'
            exact ⟨m', List.mem_cons_of_mem _ hm', hx'', hc'⟩
      · obtain ⟨t, ht, hmem⟩ := ih acc
        rw [if_neg hctx]
        refine ⟨t, ht, fun x hx => ?_⟩
        obtain ⟨m', hm', hx', hc'⟩ := hmem x hx
        exact ⟨m', List.mem_cons_of_mem _ hm', hx', hc'⟩

/-- `setdefault` preserves freedom from duplicates. -/
theorem setdefault_nodup (s : List String) (t : String) (h : s.Nodup) :
    (setdefault s t).Nodup := by
  unfold setdefault
  split
  · exact h
  · next hmem => simpa [List.nodup_append] using ⟨h, hmem⟩

/-- The domestic/HK fold preserves freedom from duplicates. -/
theorem foldl_setdefault_nodup (toks : List RegexMatch) :
    ∀ acc : List String, acc.Nodup →
      (toks.foldl (fun s m => setdefault s m.tok) acc).Nodup := by
  induction toks with
  | nil => intro acc h; simpa using h
  | cons m toks ih =>
      intro acc h
      rw [List.foldl_cons]
      exact ih _ (setdefault_nodup acc m.tok h)

/-- The US fold preserves freedom from duplicates. -/
theorem foldl_ctx_nodup (text : List Char) (toks : List RegexMatch) :
    ∀ acc : List String, acc.Nodup →
      (toks.foldl (fun s m => if contextOk text m then setdefault s m.tok else s) acc).Nodup := by
  induction toks with
  | nil => intro acc h; simpa using h
  | cons m toks ih =>
      intro acc h
      rw [List.foldl_cons]
      split
      · exact ih _ (setdefault_nodup acc m.tok h)
      · exact ih _ h

/-- A context-approved US match's token ends up in the US fold's result. -/
theorem foldl_ctx_keeps (text : List Char) (toks : List RegexMatch) :
    ∀ acc : List String, ∀ m, m ∈ toks → contextOk text m = true →
      m.tok ∈ toks.foldl (fun s m => if contextOk text m then setdefault s m.tok else s) acc := by
  induction toks with
  | nil => intro acc m h; cases h
  | cons m0 toks ih =>
      intro acc m hmem hctx
      rw [List.foldl_cons]
      rcases List.mem_cons.mp hmem with rfl | htail
      · rw [if_pos hctx]
        obtain ⟨t, ht, _⟩ := foldl_ctx_decomp text toks (setdefault acc m.tok)
        rw [ht]
        apply List.mem_append_left
        unfold setdefault
        split
        · assumption
        · simp
      · exact ih _ m htail hctx

/-! ### Token shapes per match family -/

/-- Every domestic match's token is six characters, the first from the
allow-list `{0,1,2,3,6}`, all ASCII digits. -/
theorem astockMatches_tok_shape (text : List Char) (m : RegexMatch)
    (h : m ∈ astockMatches text) :
    ∃ c0 c1 c2 c3 c4 c5, m.tok.data = [c0, c1, c2, c3, c4, c5] ∧
      (c0 = '0' ∨ c0 = '1' ∨ c0 = '2' ∨ c0 = '3' ∨ c0 = '6') ∧
      c0.isDigit = true ∧ c1.isDigit = true ∧ c2.isDigit = true ∧
      c3.isDigit = true ∧ c4.isDigit = true ∧ c5.isDigit = true := by
  have htry := mem_scanFrom (tryMatchAstock text) (text.length + 1) 0 m h
  obtain ⟨i', code, hc, htok⟩ := tryMatchAstock_tok text m.mstart m.tok m.mstop htry
  obtain ⟨c0, c1, c2, c3, c4, c5, rfl, hd, h0, h1, h2, h3, h4, h5⟩ :=
    codeAt_shape text i' code hc
  exact ⟨c0, c1, c2, c3, c4, c5, by rw [htok], hd, h0, h1, h2, h3, h4, h5⟩

/-- Every HK match's token is seven characters starting with `'H'`. -/
theorem hkMatches_tok_shape (text : List Char) (m : RegexMatch)
    (h : m ∈ hkMatches text) :
    m.tok.data.length = 7 ∧ ∃ l, m.tok.data = 'H' :: l := by
  have htry := mem_scanFrom (tryMatchHK text) (text.length + 1) 0 m h
  obtain ⟨c0, c1, d1, d2, d3, d4, d5, _, _, _, _, _, _, _, hH, hK,
    _, _, _, _, _, htok, _⟩ := tryMatchHK_shape text m.mstart m.tok m.mstop htry
  rw [htok]
  refine ⟨rfl, List.map Char.toUpper [c1, d1, d2, d3, d4, d5], ?_⟩
  show c0.toUpper :: List.map Char.toUpper [c1, d1, d2, d3, d4, d5] =
    'H' :: List.map Char.toUpper [c1, d1, d2, d3, d4, d5]
  rw [hH]

/-- A character given by `head?` is a member of the list. -/
theorem mem_of_head?_some (l : List Char) (d : Char) (h : l.head? = some d) : d ∈ l := by
  cases l with
  | nil => cases h
  | cons a t =>
      simp only [List.head?_cons, Option.some.injEq] at h
      rw [← h]
      exact List.mem_cons_self _ _

/-- Every US match's token is a nonempty all-uppercase string of length at
most five. -/
theorem usMatches_tok_shape (text : List Char) (m : RegexMatch)
    (h : m ∈ usMatches text) :
    m.tok.data ≠ [] ∧ m.tok.length ≤ 5 ∧ ∀ c ∈ m.tok.data, c.isUpper = true := by
  have htry := mem_scanFrom (tryMatchUS text) (text.length + 1) 0 m h
  exact tryMatchUS_tok_upper text m.mstart m.tok m.mstop htry

/-! ### The extractor's stages -/

/-- Every token of the domestic stage comes from a domestic match. -/
theorem astockStage_mem (text : List Char) (x : String) (h : x ∈ astockStage text) :
    ∃ m, m ∈ astockMatches text ∧ x = m.tok := by
  obtain ⟨t, ht, hmem⟩ := foldl_setdefault_decomp (astockMatches text) []
  unfold astockStage at h
  rw [ht] at h
  exact hmem x (by simpa using h)

/-- The HK stage appends a tail of HK tokens. -/
theorem hkStage_decomp (text : List Char) (acc : List String) :
    ∃ t, hkStage text acc = acc ++ t ∧ ∀ x ∈ t, ∃ m, m ∈ hkMatches text ∧ x = m.tok := by
  exact foldl_setdefault_decomp (hkMatches text) acc

/-- The US stage appends a tail of context-approved ticker tokens. -/
theorem usStage_decomp (text : List Char) (acc : List String) :
    ∃ t, usStage text acc = acc ++ t ∧
      ∀ x ∈ t, ∃ m, m ∈ usMatches text ∧ x = m.tok ∧ contextOk text m = true := by
  exact foldl_ctx_decomp text (usMatches text) acc

/-- The extractor's result is the domestic stage followed by a tail of HK
tokens followed by a tail of context-approved ticker tokens (either tail
empty when its scope is inactive). -/
theorem extract_decomp (text : List Char) (market : String) :
    ∃ t2 t3, extractStockCodes text market = astockStage text ++ t2 ++ t3 ∧
      (∀ x ∈ t2, ∃ m, m ∈ hkMatches text ∧ x = m.tok) ∧
      (∀ x ∈ t3, ∃ m, m ∈ usMatches text ∧ x = m.tok ∧ contextOk text m = true) := by
  unfold extractStockCodes
  by_cases hhk : (decide (market = "hk") || decide (market = "mixed")) = true
  · simp only [hhk, if_true]
    obtain ⟨t2, ht2, hm2⟩ := hkStage_decomp text (astockStage text)
    by_cases hus : (decide (market = "us") || decide (market = "mixed")) = true
    · simp only [hus, if_true]
      obtain ⟨t3, ht3, hm3⟩ := usStage_decomp text (hkStage text (astockStage text))
      exact ⟨t2, t3, by rw [ht3, ht2], hm2, hm3⟩
    · rw [Bool.not_eq_true] at hus
      simp only [hus, Bool.false_eq_true, if_false]
      exact ⟨t2, [], by rw [ht2]; simp, hm2, by simp⟩
  · rw [Bool.not_eq_true] at hhk
    simp only [hhk, Bool.false_eq_true, if_false]
    by_cases hus : (decide (market = "us") || decide (market = "mixed")) = true
    · simp only [hus, if_true]
      obtain ⟨t3, ht3, hm3⟩ := usStage_decomp text (astockStage text)
      exact ⟨[], t3, by rw [ht3]; simp, by simp, hm3⟩
    · rw [Bool.not_eq_true] at hus
      simp only [hus, Bool.false_eq_true, if_false]
      exact ⟨[], [], by simp, by simp, by simp⟩

/-- Any extracted token comes from one of the three match families. -/
theorem mem_extract_cases (text : List Char) (market : String) (x : String)
    (h : x ∈ extractStockCodes text market) :
    (∃ m, m ∈ astockMatches text ∧ x = m.tok) ∨
      (∃ m, m ∈ hkMatches text ∧ x = m.tok) ∨
      (∃ m, m ∈ usMatches text ∧ x = m.tok ∧ contextOk text m = true) := by
  obtain ⟨t2, t3, hdec, hm2, hm3⟩ := extract_decomp text market
  rw [hdec] at h
  rcases List.mem_append.mp h with h12 | h3
  · rcases List.mem_append.mp h12 with h1 | h2
    · exact Or.inl (astockStage_mem text x h1)
    · exact Or.inr (Or.inl (hm2 x h2))
  · exact Or.inr (Or.inr (hm3 x h3))

/-- The extractor never returns a duplicate. -/
theorem extract_nodup (text : List Char) (market : String) :
    (extractStockCodes text market).Nodup := by
  unfold extractStockCodes
  have h1 : (astockStage text).Nodup :=
    foldl_setdefault_nodup (astockMatches text) [] List.nodup_nil
  by_cases hhk : (decide (market = "hk") || decide (market = "mixed")) = true
  · simp only [hhk, if_true]
    have h2 : (hkStage text (astockStage text)).Nodup :=
      foldl_setdefault_nodup (hkMatches text) _ h1
    by_cases hus : (decide (market = "us") || decide (market = "mixed")) = true
    · simp only [hus, if_true]
      exact foldl_ctx_nodup text (usMatches text) _ h2
    · rw [Bool.not_eq_true] at hus
      simp only [hus, Bool.false_eq_true, if_false]
      exact h2
  · rw [Bool.not_eq_true] at hhk
    simp only [hhk, Bool.false_eq_true, if_false]
    by_cases hus : (decide (market = "us") || decide (market = "mixed")) = true
    · simp only [hus, if_true]
      exact foldl_ctx_nodup text (usMatches text) _ h1
    · rw [Bool.not_eq_true] at hus
      simp only [hus, Bool.false_eq_true, if_false]
      exact h1

/-- Under scope `cn` only the domestic loop runs. -/
theorem extract_cn_eq (text : List Char) :
    extractStockCodes text "cn" = astockStage text := rfl

/-- Under scope `hk` the domestic and HK loops run. -/
theorem extract_hk_eq (text : List Char) :
    extractStockCodes text "hk" = hkStage text (astockStage text) := rfl

/-- Under scope `us` the domestic and US loops run. -/
theorem extract_us_eq (text : List Char) :
    extractStockCodes text "us" = usStage text (astockStage text) := rfl

/-- Under scope `mixed` all three loops run. -/
theorem extract_mixed_eq (text : List Char) :
    extractStockCodes text "mixed" = usStage text (hkStage text (astockStage text)) := rfl

/-! ### The claims -/

/-- C1: for every input text and market scope, any extracted token that is
a 6-character all-digit token has its leading digit in the allow-list
`{0,1,2,3,6}`; in particular `400001` (leading digit 4) never appears in
the output. -/
theorem extracted_six_digit_leading_allowed (text : List Char) (market : String) :
    ("400001" : String) ∉ extractStockCodes text market ∧
    ∀ c ∈ extractStockCodes text market, c.length = 6 →
      (∀ ch ∈ c.data, ch.isDigit = true) →
      ∀ d, c.data.head? = some d →
        d = '0' ∨ d = '1' ∨ d = '2' ∨ d = '3' ∨ d = '6' := by
  have hmain : ∀ c ∈ extractStockCodes text market, c.length = 6 →
      (∀ ch ∈ c.data, ch.isDigit = true) →
      ∀ d, c.data.head? = some d →
        d = '0' ∨ d = '1' ∨ d = '2' ∨ d = '3' ∨ d = '6' := by
    intro c hc hlen hdig d hd
    rcases mem_extract_cases text market c hc with ⟨m, hm, rfl⟩ | ⟨m, hm, rfl⟩ |
      ⟨m, hm, rfl, _⟩
    · obtain ⟨c0, c1, c2, c3, c4, c5, hdata, hallow, _⟩ :=
        astockMatches_tok_shape text m hm
      rw [hdata] at hd
      cases hd
      exact hallow
    · obtain ⟨hlen7, l, hdata⟩ := hkMatches_tok_shape text m hm
      have hdm : d ∈ m.tok.data := mem_of_head?_some _ _ hd
      rw [hdata] at hd
      simp only [List.head?_cons, Option.some.injEq] at hd
      subst hd
      exact absurd (hdig 'H' hdm) (by decide)
    · have hdm : d ∈ m.tok.data := mem_of_head?_some _ _ hd
      obtain ⟨_, _, hup⟩ := usMatches_tok_shape text m hm
      exact (not_isDigit_of_isUpper d (hup d hdm) (hdig d hdm)).elim
  refine ⟨fun hmem => ?_, hmain⟩
  have := hmain "400001" hmem (by decide) (by decide) '4' (by decide)
  simp at this

/-- C1 witness: `600519` is extracted from the text `600519` under scope
`cn`, and the theorem instantiates there, yielding its leading digit in
the allow-list. -/
theorem extracted_six_digit_leading_allowed_witness :
    '6' = '0' ∨ '6' = '1' ∨ '6' = '2' ∨ '6' = '3' ∨ '6' = '6' :=
  (extracted_six_digit_leading_allowed "600519".data "cn").2 "600519" (by decide)
    (by decide) (by decide) '6' (by decide)

/-- C2: for every text and scope the output has no duplicates and consists
of the domestic-stage tokens (in first-match order, first occurrence
winning) followed by HK tokens followed by context-approved ticker tokens;
and on the text `600519, 000001, 300750` under scope `cn` the result is
exactly `["600519", "000001", "300750"]`. -/
theorem extract_order_and_dedup :
    (∀ (text : List Char) (market : String),
        (extractStockCodes text market).Nodup ∧
        ∃ t2 t3, extractStockCodes text market = astockStage text ++ t2 ++ t3 ∧
          (∀ x ∈ t2, ∃ m, m ∈ hkMatches text ∧ x = m.tok) ∧
          (∀ x ∈ t3, ∃ m, m ∈ usMatches text ∧ x = m.tok ∧ contextOk text m = true)) ∧
    extractStockCodes "600519, 000001, 300750".data "cn" =
      ["600519", "000001", "300750"] := by
  refine ⟨fun text market => ⟨extract_nodup text market, extract_decomp text market⟩, ?_⟩
  decide

/-- C2 witness: the duplicate-freeness conjunct instantiated on a concrete
text and scope. -/
theorem extract_order_and_dedup_witness :
    (extractStockCodes "600519 600519".data "cn").Nodup :=
  (extract_order_and_dedup.1 "600519 600519".data "cn").1

/-- C3: under scope `us` or `mixed`, a nonempty all-uppercase token of at
most five characters is in the output exactly when some ticker match of
the text carries it and the ±20-character window around that match
contains a currency symbol (`$`, `￥`, `¥`), a percent sign or a digit;
consequently `AAPL rose 3%` yields `AAPL` and `AAPL is great` yields
nothing. -/
theorem us_ticker_context_iff :
    (∀ (text : List Char) (market : String) (tok : String),
        market = "us" ∨ market = "mixed" →
        tok.data ≠ [] → tok.length ≤ 5 → (∀ c ∈ tok.data, c.isUpper = true) →
        (tok ∈ extractStockCodes text market ↔
          ∃ m, m ∈ usMatches text ∧ m.tok = tok ∧ contextOk text m = true)) ∧
    extractStockCodes "AAPL rose 3%".data "us" = ["AAPL"] ∧
    extractStockCodes "AAPL is great".data "us" = [] := by
  refine ⟨?_, by decide, by decide⟩
  intro text market tok hmkt hne hlen hup
  constructor
  · intro hmem
    rcases mem_extract_cases text market tok hmem with ⟨m, hm, rfl⟩ | ⟨m, hm, rfl⟩ |
      ⟨m, hm, rfl, hctx⟩
    · obtain ⟨c0, c1, c2, c3, c4, c5, hdata, _, h0, _⟩ :=
        astockMatches_tok_shape text m hm
      have hc0 : c0 ∈ m.tok.data := by rw [hdata]; exact List.mem_cons_self _ _
      exact (not_isDigit_of_isUpper c0 (hup c0 hc0) h0).elim
    · obtain ⟨hlen7, _⟩ := hkMatches_tok_shape text m hm
      have heq : m.tok.length = m.tok.data.length := rfl
      omega
    · exact ⟨m, hm, rfl, hctx⟩
  · rintro ⟨m, hm, rfl, hctx⟩
    rcases hmkt with rfl | rfl
    · rw [extract_us_eq]
      exact foldl_ctx_keeps text (usMatches text) _ m hm hctx
    · rw [extract_mixed_eq]
      exact foldl_ctx_keeps text (usMatches text) _ m hm hctx

/-- C3 witness: the equivalence instantiated for `AAPL` in `AAPL rose 3%`
under scope `us`, in the kept direction. -/
theorem us_ticker_context_iff_witness :
    ∃ m, m ∈ usMatches "AAPL rose 3%".data ∧ m.tok = "AAPL" ∧
      contextOk "AAPL rose 3%".data m = true :=
  (us_ticker_context_iff.1 "AAPL rose 3%".data "us" "AAPL" (Or.inl rfl) (by decide)
    (by decide) (by decide)).mp (by decide)

/-- C4: a successful HK-pattern match is a 2-letter `HK` marker (matched
case-insensitively) immediately followed by 5 digits; the kept token is
the uppercased 7-character match; and the text `hk00700 and HK00700`
under scope `hk` produces the single entry `HK00700`. -/
theorem hk_marker_token_uppercased :
    (∀ (text : List Char) (i : Nat) (tok : String) (j : Nat),
        tryMatchHK text i = some (tok, j) →
        j = i + 7 ∧
        ∃ c0 c1 d1 d2 d3 d4 d5,
          text.get? i = some c0 ∧ text.get? (i + 1) = some c1 ∧
          text.get? (i + 2) = some d1 ∧ text.get? (i + 3) = some d2 ∧
          text.get? (i + 4) = some d3 ∧ text.get? (i + 5) = some d4 ∧
          text.get? (i + 6) = some d5 ∧
          c0.toUpper = 'H' ∧ c1.toUpper = 'K' ∧
          d1.isDigit = true ∧ d2.isDigit = true ∧ d3.isDigit = true ∧
          d4.isDigit = true ∧ d5.isDigit = true ∧
          tok = String.mk ([c0, c1, d1, d2, d3, d4, d5].map Char.toUpper)) ∧
    extractStockCodes "hk00700 and HK00700".data "hk" = ["HK00700"] := by
  refine ⟨?_, by decide⟩
  intro text i tok j h
  obtain ⟨c0, c1, d1, d2, d3, d4, d5, g0, g1, g2, g3, g4, g5, g6, hH, hK,
    h1, h2, h3, h4, h5, htok, hj⟩ := tryMatchHK_shape text i tok j h
  exact ⟨hj, c0, c1, d1, d2, d3, d4, d5, g0, g1, g2, g3, g4, g5, g6, hH, hK,
    h1, h2, h3, h4, h5, htok⟩

/-- C4 witness: the match-shape conjunct instantiated on the concrete
match of `hk00700` at position 0. -/
theorem hk_marker_token_uppercased_witness : (7 : Nat) = 0 + 7 :=
  (hk_marker_token_uppercased.1 "hk00700".data 0 "HK00700" 7 (by decide)).1

/-- C5: with a non-negative maximum, truncation keeps at most that many
codes, namely an initial segment of the extracted list, without
reordering; with `max_stocks = 2` and domestic matches `111111`, `222222`,
`666666` the program prints exactly `111111,222222`. -/
theorem truncation_keeps_earliest :
    (∀ (l : List String) (n : Int), 0 ≤ n →
        (pySlice l n).length ≤ n.toNat ∧ ∃ rest, l = pySlice l n ++ rest) ∧
    mainRun (ExecOutcome.runSuccess "111111 222222 666666") "cn" 2 =
      { stdoutLines := ["111111,222222"], exitCode := 0 } := by
  refine ⟨?_, by decide⟩
  intro l n hn
  unfold pySlice
  rw [if_pos hn]
  exact ⟨List.length_take_le _ _, l.drop n.toNat, (List.take_append_drop _ l).symm⟩

/-- C5 witness: the truncation bound instantiated on a concrete list. -/
theorem truncation_keeps_earliest_witness :
    (pySlice ["600519", "000001", "300750"] 2).length ≤ (2 : Int).toNat :=
  (truncation_keeps_earliest.1 ["600519", "000001", "300750"] 2 (by decide)).1

/-- C6: when the executor succeeds but extraction yields no codes, the
program prints a single blank line and returns exit status 0. -/
theorem empty_extraction_is_success (content market : String) (n : Int)
    (h : extractStockCodes content.data market = []) :
    mainRun (ExecOutcome.runSuccess content) market n =
      { stdoutLines := [""], exitCode := 0 } := by
  simp only [mainRun]
  rw [h]
  unfold pySlice
  split <;> simp

/-- C6 witness: instantiated on a report with no recognizable codes. -/
theorem empty_extraction_is_success_witness :
    mainRun (ExecOutcome.runSuccess "no codes here") "cn" 10 =
      { stdoutLines := [""], exitCode := 0 } :=
  empty_extraction_is_success "no codes here" "cn" 10 (by decide)

/-- C7: the program returns exit status 1 exactly on executor build
failure and on executor-reported failure, and exit status 0 otherwise
(the exit code is always 0 or 1). -/
theorem exit_code_characterization (o : ExecOutcome) (market : String) (n : Int) :
    ((mainRun o market n).exitCode = 1 ↔
      o = ExecOutcome.buildError ∨ ∃ e, o = ExecOutcome.runFailure e) ∧
    ((mainRun o market n).exitCode = 0 ∨ (mainRun o market n).exitCode = 1) := by
  cases o with
  | buildError => simp [mainRun]
  | runFailure e => simp [mainRun]
  | runSuccess c =>
      simp only [mainRun]
      split <;> simp

/-- C7 witness: a build failure really exits with status 1. -/
theorem exit_code_characterization_witness :
    (mainRun ExecOutcome.buildError "cn" 10).exitCode = 1 :=
  (exit_code_characterization ExecOutcome.buildError "cn" 10).1.mpr (Or.inl rfl)

/-- C8 counterexample: on executor build failure the program prints no
line at all (stdout gets zero lines, not one), refuting "exactly one line
is printed in every execution". -/
theorem buildError_prints_nothing :
    (mainRun ExecOutcome.buildError "cn" 10).stdoutLines.length = 0 := rfl

/-- C8 (amended): in every execution other than an executor build failure,
exactly one line is printed to stdout — either a comma join of a nonempty
code list or an empty line; on build failure nothing is printed. -/
theorem one_line_except_build_failure (o : ExecOutcome) (market : String) (n : Int)
    (h : o ≠ ExecOutcome.buildError) :
    ∃ s, (mainRun o market n).stdoutLines = [s] ∧
      (s = "" ∨ ∃ codes : List String, codes ≠ [] ∧ s = String.intercalate "," codes) := by
  cases o with
  | buildError => exact absurd rfl h
  | runFailure e => exact ⟨"", rfl, Or.inl rfl⟩
  | runSuccess c =>
      simp only [mainRun]
      split
      · exact ⟨"", rfl, Or.inl rfl⟩
      · next hne =>
          refine ⟨_, rfl, Or.inr ⟨pySlice (extractStockCodes c.data market) n, ?_, rfl⟩⟩
          intro hnil
          rw [hnil] at hne
          exact hne rfl

/-- C8 witness: the amended statement instantiated on an executor-reported
failure. -/
theorem one_line_except_build_failure_witness :
    ∃ s, (mainRun (ExecOutcome.runFailure "agent failed") "cn" 10).stdoutLines = [s] ∧
      (s = "" ∨ ∃ codes : List String, codes ≠ [] ∧ s = String.intercalate "," codes) :=
  one_line_except_build_failure (ExecOutcome.runFailure "agent failed") "cn" 10 (by decide)

/-- C9: the extractor is a pure function of the text and the scope — two
runs on identical input produce identical output. -/
theorem extract_deterministic (text : List Char) (market : String) :
    extractStockCodes text market = extractStockCodes text market := rfl

/-- C10: for a negative maximum, the slice `codes[:max_stocks]` keeps all
codes except the last `|n|` (Python negative-bound slicing), so the
"at most the configured maximum" guarantee needs `max_stocks ≥ 0`; with
`max_stocks = -1` and three extracted codes the program prints the first
two. -/
theorem negative_max_drops_from_end :
    (∀ (l : List String) (n : Int), n < 0 →
        pySlice l n = l.take (l.length - (-n).toNat)) ∧
    mainRun (ExecOutcome.runSuccess "111111 222222 666666") "cn" (-1) =
      { stdoutLines := ["111111,222222"], exitCode := 0 } := by
  refine ⟨?_, by decide⟩
  intro l n hn
  unfold pySlice
  rw [if_neg (by omega)]
  congr 1
  omega

/-- C10 witness: the negative-bound slice instantiated concretely. -/
theorem negative_max_drops_from_end_witness :
    pySlice ["600519"] (-1) =
      (["600519"] : List String).take ((["600519"] : List String).length - ((-(-1 : Int)).toNat)) :=
  negative_max_drops_from_end.1 ["600519"] (-1) (by decide)

end AgentSelect
